import Mathlib

/-!
Shallow embedding of the amareth-calendar core (src/backend/core):
calendar.py (the ZodiacDate data model), converter.py (date conversion
and month/year lengths) and ephemeris.py (the ingress search
post-processing and the year-keyed ingress cache).

Python `datetime.date` values are embedded as their proleptic Gregorian
ordinals (`Int`): date comparison becomes `Int` comparison, subtraction
of dates in whole days becomes `Int` subtraction and
`date + timedelta(days=k)` becomes `+ k`, all exactly.

An ingress table — the value `_get_ingress_dates_for_zodiac_year`
returns, i.e. the civil UTC date portion of each ingress instant paired
with its sign index — is a list of `(date ordinal, sign_index)` pairs.
The converter functions are parameterised by the oracle `E` producing
that table for each zodiac year (in the program it is backed by the
cache and skyfield), and by `gregYearOf`, the `date.year` attribute of
Python dates under the ordinal embedding.
-/

namespace Amareth

/-- calendar.py: the ZodiacDate record (zodiac year, month 1-12, 1-based day). -/
structure ZodiacDate where
  year : Int
  month : Int
  day : Int
deriving DecidableEq

/-- The distinct ValueError raises of converter.py, identified by payload. -/
inductive ConvError where
  | beforeZodiacYear : Int → Int → ConvError
  | invalidMonth : Int → ConvError
  | dayBeyondMonth : Int → Int → Int → ConvError
deriving DecidableEq

/-- An ingress table: (civil UTC ingress date as ordinal, sign_index) pairs. -/
abbrev IngressTable := List (Int × Int)

/-- Date component of entry `i` of a table (Python list indexing). -/
def dateAt (t : IngressTable) (i : Nat) : Int := (t.getD i (0, 0)).1

/-- Sign component of entry `i` of a table. -/
def signAt (t : IngressTable) (i : Nat) : Int := (t.getD i (0, 0)).2

/-- bisect.bisect_right of the Python stdlib: the `while lo < hi` loop,
written as structural recursion on an explicit iteration bound (the
loop runs at most `length + 1` times because `hi - lo` shrinks on every
iteration). -/
def bisectRightLoop (a : List Int) (x : Int) : Nat → Nat → Nat → Nat
  | 0, lo, _ => lo
  | fuel + 1, lo, hi =>
    if lo < hi then
      let mid := (lo + hi) / 2
      if x < a.getD mid 0 then bisectRightLoop a x fuel lo mid
      else bisectRightLoop a x fuel (mid + 1) hi
    else lo

/-- Python `bisect_right(a, x)` over the whole list. -/
def bisect_right (a : List Int) (x : Int) : Nat :=
  bisectRightLoop a x (a.length + 1) 0 a.length

/-- converter.py `_find_zodiac_year_for_gregorian`: compare against the
Aries ingress date (entry 0) of the table for the Gregorian year of `g`. -/
def find_zodiac_year_for_gregorian (E : Int → IngressTable)
    (gregYearOf : Int → Int) (g : Int) : Int :=
  let aries_date := dateAt (E (gregYearOf g)) 0
  if aries_date ≤ g then gregYearOf g else gregYearOf g - 1

/-- converter.py `gregorian_to_zodiac`. -/
def gregorian_to_zodiac (E : Int → IngressTable) (gregYearOf : Int → Int)
    (g : Int) : Except ConvError ZodiacDate :=
  let zodiac_year := find_zodiac_year_for_gregorian E gregYearOf g
  let ingress_dates := E zodiac_year
  let dates_only := ingress_dates.map Prod.fst
  let idx : Int := (bisect_right dates_only g : Int) - 1
  if idx < 0 then
    Except.error (ConvError.beforeZodiacYear g zodiac_year)
  else
    let entry := ingress_dates.getD idx.toNat (0, 0)
    let day := g - entry.1 + 1
    let month := entry.2 + 1
    Except.ok ⟨zodiac_year, month, day⟩

/-- converter.py `zodiac_to_gregorian`.  Note the day bound is checked
only when `month_idx + 1 < len(ingress_dates)`: for month 12 the result
is returned without any bound check. -/
def zodiac_to_gregorian (E : Int → IngressTable) (z : ZodiacDate) :
    Except ConvError Int :=
  let ingress_dates := E z.year
  let month_idx := z.month - 1
  if month_idx < 0 ∨ (ingress_dates.length : Int) ≤ month_idx then
    Except.error (ConvError.invalidMonth z.month)
  else
    let month_start_date := (ingress_dates.getD month_idx.toNat (0, 0)).1
    let result := month_start_date + (z.day - 1)
    if month_idx.toNat + 1 < ingress_dates.length then
      let next_month_start := (ingress_dates.getD (month_idx.toNat + 1) (0, 0)).1
      if next_month_start ≤ result then
        Except.error (ConvError.dayBeyondMonth z.day z.month z.year)
      else Except.ok result
    else Except.ok result

/-- converter.py `month_length`: for months 1-11 the span to the next
ingress of the same table, for month 12 the span to entry 0 of the next
zodiac year. -/
def month_length (E : Int → IngressTable) (zodiac_year month : Int) :
    Except ConvError Int :=
  let ingress_dates := E zodiac_year
  let month_idx := month - 1
  if month_idx < 0 ∨ (ingress_dates.length : Int) ≤ month_idx then
    Except.error (ConvError.invalidMonth month)
  else
    let start_date := (ingress_dates.getD month_idx.toNat (0, 0)).1
    let end_date :=
      if month_idx.toNat + 1 < ingress_dates.length then
        (ingress_dates.getD (month_idx.toNat + 1) (0, 0)).1
      else
        dateAt (E (zodiac_year + 1)) 0
    Except.ok (end_date - start_date)

/-- converter.py `year_length`: the sum of month_length over months 1..12
(`range(1, 13)` written as `List.range 12` shifted by one); an error in
any month propagates, as a raised exception would. -/
def year_length (E : Int → IngressTable) (zodiac_year : Int) :
    Except ConvError Int := do
  let ls ← (List.range 12).mapM (fun (m : Nat) => month_length E zodiac_year ((m : Int) + 1))
  pure ls.sum

/-- ephemeris.py `compute_ingresses`, collection loop: skip transitions
until the first with sign index 0 (Aries), then append every transition
and stop once 12 have been gathered. -/
def collectFromAries : List (Int × Int) → Bool → IngressTable → IngressTable
  | [], _, acc => acc
  | (t, s) :: rest, seen_aries, acc =>
    let seen := if s == 0 && !seen_aries then true else seen_aries
    if !seen then collectFromAries rest seen acc
    else
      let acc2 := acc ++ [(t, s)]
      if acc2.length == 12 then acc2 else collectFromAries rest seen acc2

/-- ephemeris.py `compute_ingresses`, parameterised by the transition
list (instant, sign index) that `skyfield.almanac.find_discrete` returns
on the window from Feb 1 of the year to Apr 1 of the next year.  The
entry fields `longitude` (= sign_index * 30) and the two renderings of
the instant are redundant with the pair and omitted. -/
def compute_ingresses (transitions : List (Int × Int)) : IngressTable :=
  collectFromAries transitions false []

/-- The persisted cache content: a year-keyed mapping, as an association
list in insertion order (a Python dict). -/
abbrev CacheStore := List (Int × IngressTable)

/-- ephemeris.py `load_ingress_cache`; `none` models the missing file. -/
def load_ingress_cache (disk : Option CacheStore) : Option CacheStore := disk

/-- ephemeris.py `save_ingress_cache`: rewrites the whole file. -/
def save_ingress_cache (data : CacheStore) (_disk : Option CacheStore) :
    Option CacheStore :=
  some data

/-- Python dict assignment `cache[year] = v`: replace in place when the
key exists, append otherwise. -/
def dictInsert (k : Int) (v : IngressTable) (s : CacheStore) : CacheStore :=
  if s.any (fun p => p.1 == k) then
    s.map (fun p => if p.1 = k then (k, v) else p)
  else s ++ [(k, v)]

/-- ephemeris.py `get_ingresses_for_year`: load the store, serve the
year from it when present (no write), otherwise compute, merge the new
year in and save.  Python tests `if cache and year_str in cache`; a
`None` load and an empty dict both fail that test and both lead to
inserting into an empty dict, so the two collapse to key lookup in
`(load disk).getD []`.  The datetime re-parsing on the hit path and the
`serializable` re-listing on the miss path only change representation of
the same entries and are identities here. -/
def get_ingresses_for_year (findDiscrete : Int → List (Int × Int))
    (disk : Option CacheStore) (year : Int) : IngressTable × Option CacheStore :=
  let cache := load_ingress_cache disk
  let c := cache.getD []
  match c.lookup year with
  | some entries => (entries, disk)
  | none =>
    let ingresses := compute_ingresses (findDiscrete year)
    (ingresses, save_ingress_cache (dictInsert year ingresses c) disk)

/-! Well-formedness of the ephemeris environment (spec section 3, the
YearIngressTable invariant, plus the facts about real ingress dates that
step 1 of gregorian_to_zodiac relies on). -/

/-- A well-formed year table: 12 entries, entry `i` carries sign index
`i`, and the ingress dates are strictly increasing. -/
def WFTable (t : IngressTable) : Prop :=
  t.length = 12 ∧
  (∀ i : Nat, i < 12 → signAt t i = (i : Int)) ∧
  (∀ i j : Nat, i < j → j < 12 → dateAt t i < dateAt t j)

/-- Well-formed ephemeris environment: every year table is well formed,
consecutive years chain (the Pisces ingress strictly precedes the next
Aries ingress), the Gregorian-year function is monotone in the date and
places the Aries ingress of zodiac year `y` inside Gregorian year `y`. -/
def WFEphem (E : Int → IngressTable) (gregYearOf : Int → Int) : Prop :=
  (∀ y, WFTable (E y)) ∧
  (∀ y, dateAt (E y) 11 < dateAt (E (y + 1)) 0) ∧
  (∀ d e : Int, d ≤ e → gregYearOf d ≤ gregYearOf e) ∧
  (∀ y, gregYearOf (dateAt (E y) 0) = y)

theorem WFTable.date_le {t : IngressTable} (h : WFTable t) {i j : Nat}
    (hij : i ≤ j) (hj : j < 12) : dateAt t i ≤ dateAt t j := by
  rcases Nat.lt_or_eq_of_le hij with hlt | heq
  · exact le_of_lt (h.2.2 i j hlt hj)
  · rw [heq]

theorem WFEphem.lt_next_aries {E : Int → IngressTable} {gy : Int → Int}
    (h : WFEphem E gy) (y : Int) {i : Nat} (hi : i < 12) :
    dateAt (E y) i < dateAt (E (y + 1)) 0 :=
  lt_of_le_of_lt ((h.1 y).date_le (by omega) (by omega)) (h.2.1 y)

/-! Characterisation of the Python bisect_right loop. -/

theorem getD_map_fst (t : IngressTable) (i : Nat) (h : i < t.length) :
    (t.map Prod.fst).getD i 0 = dateAt t i := by
  induction t generalizing i with
  | nil => simp at h
  | cons a l ih =>
    cases i with
    | zero => rfl
    | succ n =>
      have hn : n < l.length := by simp at h; omega
      simpa [dateAt, List.getD_cons_succ] using ih n hn

theorem bisectRightLoop_spec (a : List Int) (x : Int)
    (mono : ∀ i j : Nat, i ≤ j → j < a.length → a.getD i 0 ≤ a.getD j 0) :
    ∀ fuel lo hi : Nat, hi ≤ a.length → lo ≤ hi → hi - lo < fuel →
      (∀ i, i < lo → a.getD i 0 ≤ x) →
      (∀ i, hi ≤ i → i < a.length → x < a.getD i 0) →
      lo ≤ bisectRightLoop a x fuel lo hi ∧
      bisectRightLoop a x fuel lo hi ≤ hi ∧
      (∀ i, i < bisectRightLoop a x fuel lo hi → a.getD i 0 ≤ x) ∧
      (∀ i, bisectRightLoop a x fuel lo hi ≤ i → i < a.length →
        x < a.getD i 0) := by
  intro fuel
  induction fuel with
  | zero => intro lo hi _ _ hf _ _; omega
  | succ n ih =>
    intro lo hi hhi hlh hf hlow hhigh
    by_cases h : lo < hi
    · rw [bisectRightLoop]
      simp only [if_pos h]
      have hmlo : lo ≤ (lo + hi) / 2 := by omega
      have hmhi : (lo + hi) / 2 < hi := by omega
      by_cases hx : x < a.getD ((lo + hi) / 2) 0
      · simp only [if_pos hx]
        have hrec := ih lo ((lo + hi) / 2) (by omega) hmlo (by omega) hlow
          (fun i h1 h2 => lt_of_lt_of_le hx (mono _ i h1 h2))
        exact ⟨hrec.1, le_trans hrec.2.1 (le_of_lt hmhi), hrec.2.2⟩
      · simp only [if_neg hx]
        push_neg at hx
        have hrec := ih ((lo + hi) / 2 + 1) hi hhi (by omega) (by omega)
          (fun i h1 => le_trans (mono i _ (by omega) (by omega)) hx) hhigh
        exact ⟨le_trans (by omega) hrec.1, hrec.2.1, hrec.2.2⟩
    · rw [bisectRightLoop]
      simp only [if_neg h]
      exact ⟨le_rfl, hlh, hlow, fun i h1 h2 => hhigh i (by omega) h2⟩

theorem bisect_right_spec (a : List Int) (x : Int)
    (mono : ∀ i j : Nat, i ≤ j → j < a.length → a.getD i 0 ≤ a.getD j 0) :
    bisect_right a x ≤ a.length ∧
    (∀ i, i < bisect_right a x → a.getD i 0 ≤ x) ∧
    (∀ i, bisect_right a x ≤ i → i < a.length → x < a.getD i 0) := by
  have h := bisectRightLoop_spec a x mono (a.length + 1) 0 a.length le_rfl
    (Nat.zero_le _) (by omega) (fun i hi => absurd hi (by omega))
    (fun i h1 h2 => absurd h2 (by omega))
  exact ⟨h.2.1, h.2.2⟩

/-- On a well-formed table, bisect_right over the date column returns
`k + 1` exactly when `x` lies in the half-open span of month index `k`. -/
theorem bisect_right_table {t : IngressTable} (hwf : WFTable t) {k : Nat}
    (hk : k < 12) (x : Int) (h1 : dateAt t k ≤ x)
    (h2 : k = 11 ∨ x < dateAt t (k + 1)) :
    bisect_right (t.map Prod.fst) x = k + 1 := by
  have ht12 : t.length = 12 := hwf.1
  have hlen : (t.map Prod.fst).length = 12 := by
    rw [List.length_map, ht12]
  have mono : ∀ i j : Nat, i ≤ j → j < (t.map Prod.fst).length →
      (t.map Prod.fst).getD i 0 ≤ (t.map Prod.fst).getD j 0 := by
    intro i j hij hj
    rw [hlen] at hj
    rw [getD_map_fst t i (by omega), getD_map_fst t j (by omega)]
    exact hwf.date_le hij hj
  obtain ⟨hb1, hb2, hb3⟩ := bisect_right_spec (t.map Prod.fst) x mono
  rw [hlen] at hb1
  have hklt : k < bisect_right (t.map Prod.fst) x := by
    by_contra hcon
    push_neg at hcon
    have := hb3 k hcon (by omega)
    rw [getD_map_fst t k (by omega)] at this
    omega
  have hle : bisect_right (t.map Prod.fst) x ≤ k + 1 := by
    rcases h2 with h11 | hlt
    · omega
    · by_contra hcon
      push_neg at hcon
      have := hb2 (k + 1) hcon
      rw [getD_map_fst t (k + 1) (by omega)] at this
      omega
  omega

/-! Evaluation lemmas for the converter under a well-formed environment. -/

theorem find_year_eq {E : Int → IngressTable} {gy : Int → Int}
    (h : WFEphem E gy) {Y g : Int}
    (h1 : dateAt (E Y) 0 ≤ g) (h2 : g < dateAt (E (Y + 1)) 0) :
    find_zodiac_year_for_gregorian E gy g = Y := by
  have hYle : Y ≤ gy g := by
    have hm := h.2.2.1 _ _ h1
    rwa [h.2.2.2 Y] at hm
  have hleY : gy g ≤ Y + 1 := by
    have hm := h.2.2.1 _ _ (le_of_lt h2)
    rwa [h.2.2.2 (Y + 1)] at hm
  have hcase : gy g = Y ∨ gy g = Y + 1 := by omega
  simp only [find_zodiac_year_for_gregorian]
  rcases hcase with hc | hc
  · rw [hc, if_pos h1]
  · rw [hc, if_neg (by omega)]
    omega

/-- Step 1 of gregorian_to_zodiac is sound for every date: the chosen
zodiac year brackets the input between its Aries ingress and the next. -/
theorem governing_bounds {E : Int → IngressTable} {gy : Int → Int}
    (h : WFEphem E gy) (g : Int) :
    dateAt (E (find_zodiac_year_for_gregorian E gy g)) 0 ≤ g ∧
    g < dateAt (E (find_zodiac_year_for_gregorian E gy g + 1)) 0 := by
  simp only [find_zodiac_year_for_gregorian]
  by_cases hc : dateAt (E (gy g)) 0 ≤ g
  · rw [if_pos hc]
    refine ⟨hc, ?_⟩
    by_contra hcon
    push_neg at hcon
    have hm := h.2.2.1 _ _ hcon
    rw [h.2.2.2 (gy g + 1)] at hm
    omega
  · rw [if_neg hc]
    push_neg at hc
    constructor
    · by_contra hcon
      push_neg at hcon
      have hm := h.2.2.1 _ _ (le_of_lt hcon)
      rw [h.2.2.2 (gy g - 1)] at hm
      omega
    · have he : gy g - 1 + 1 = gy g := by omega
      rw [he]
      exact hc

/-- gregorian_to_zodiac evaluated on a date that lies in month index `k`
of zodiac year `Y` (the month 12 upper bound being the next Aries). -/
theorem gregorian_to_zodiac_eq {E : Int → IngressTable} {gy : Int → Int}
    (h : WFEphem E gy) {Y g : Int} {k : Nat} (hk : k < 12)
    (h1 : dateAt (E Y) k ≤ g)
    (h2 : g < (if k < 11 then dateAt (E Y) (k + 1) else dateAt (E (Y + 1)) 0)) :
    gregorian_to_zodiac E gy g =
      Except.ok ⟨Y, (k : Int) + 1, g - dateAt (E Y) k + 1⟩ := by
  have hwfY := h.1 Y
  have hg0 : dateAt (E Y) 0 ≤ g := le_trans (hwfY.date_le (Nat.zero_le k) hk) h1
  have hgN : g < dateAt (E (Y + 1)) 0 := by
    by_cases hk11 : k < 11
    · rw [if_pos hk11] at h2
      exact lt_of_lt_of_le h2 (le_of_lt (h.lt_next_aries Y (by omega)))
    · rwa [if_neg hk11] at h2
  have hfind := find_year_eq h hg0 hgN
  have hbis : bisect_right ((E Y).map Prod.fst) g = k + 1 := by
    apply bisect_right_table hwfY hk g h1
    by_cases hk11 : k < 11
    · right; rwa [if_pos hk11] at h2
    · left; omega
  have hsign : ((E Y).getD k (0, 0)).2 = (k : Int) := hwfY.2.1 k hk
  simp only [gregorian_to_zodiac, hfind, hbis]
  rw [if_neg (by push_cast; omega)]
  have htn : (((k + 1 : Nat) : Int) - 1).toNat = k := by omega
  rw [htn, hsign]
  rfl

/-- zodiac_to_gregorian evaluated at month index `k` (month `k + 1`):
the bound against the next ingress is only checked when `k < 11`; for
month 12 any day value passes. -/
theorem zodiac_to_gregorian_eq {E : Int → IngressTable} {Y d : Int} {k : Nat}
    (hlen : (E Y).length = 12) (hk : k < 12)
    (hbound : k = 11 ∨ dateAt (E Y) k + (d - 1) < dateAt (E Y) (k + 1)) :
    zodiac_to_gregorian E ⟨Y, (k : Int) + 1, d⟩ =
      Except.ok (dateAt (E Y) k + (d - 1)) := by
  simp only [zodiac_to_gregorian, hlen]
  have hidx : ((k : Int) + 1) - 1 = (k : Int) := by ring
  rw [hidx]
  rw [if_neg (by push_cast; omega)]
  rw [Int.toNat_natCast]
  by_cases hk11 : k + 1 < 12
  · rw [if_pos hk11]
    rcases hbound with h11 | hb
    · omega
    · rw [if_neg (by simpa [dateAt] using not_le.mpr hb)]
      rfl
  · rw [if_neg hk11]
    rfl

/-- month_length evaluated at month index `k` (month `k + 1`). -/
theorem month_length_eq {E : Int → IngressTable} {Y : Int} {k : Nat}
    (hlen : (E Y).length = 12) (hk : k < 12) :
    month_length E Y ((k : Int) + 1) =
      Except.ok ((if k + 1 < 12 then dateAt (E Y) (k + 1)
        else dateAt (E (Y + 1)) 0) - dateAt (E Y) k) := by
  simp only [month_length, hlen]
  have hidx : ((k : Int) + 1) - 1 = (k : Int) := by ring
  rw [hidx]
  rw [if_neg (by push_cast; omega)]
  rw [Int.toNat_natCast]
  by_cases hk11 : k + 1 < 12
  · simp [dateAt, hk11]
  · simp [dateAt, hk11]

/-- Weak monotonicity of the date column of a well-formed table, in the
form the bisect specification consumes. -/
theorem wf_map_mono {t : IngressTable} (hwf : WFTable t) :
    ∀ i j : Nat, i ≤ j → j < (t.map Prod.fst).length →
      (t.map Prod.fst).getD i 0 ≤ (t.map Prod.fst).getD j 0 := by
  intro i j hij hj
  have ht12 : t.length = 12 := hwf.1
  rw [List.length_map, ht12] at hj
  rw [getD_map_fst t i (by omega), getD_map_fst t j (by omega)]
  exact hwf.date_le hij hj

/-! A concrete well-formed environment used to instantiate the claim
theorems on explicit inputs: zodiac year `y` has its 12 ingress dates at
`365 * y + 30 * i` with sign index `i`, and every ordinal `d` belongs to
Gregorian year `d / 365`. -/

def sampleE (y : Int) : IngressTable :=
  (List.range 12).map (fun (i : Nat) => (365 * y + 30 * (i : Int), (i : Int)))

def sampleYearOf (d : Int) : Int := d / 365

theorem sampleE_getD (y : Int) {i : Nat} (hi : i < 12) :
    (sampleE y).getD i (0, 0) = (365 * y + 30 * (i : Int), (i : Int)) := by
  rw [sampleE, List.getD_eq_getElem?_getD, List.getElem?_map, List.getElem?_range hi]
  rfl

theorem sampleE_len (y : Int) : (sampleE y).length = 12 := by
  rw [sampleE, List.length_map, List.length_range]

theorem sampleE_wf : WFEphem sampleE sampleYearOf := by
  refine ⟨fun y => ⟨sampleE_len y, ?_, ?_⟩, ?_, ?_, ?_⟩
  · intro i hi
    simp only [signAt]
    rw [sampleE_getD y hi]
  · intro i j hij hj
    simp only [dateAt, sampleE_getD y (lt_trans hij hj), sampleE_getD y hj]
    have : (i : Int) < (j : Int) := by exact_mod_cast hij
    omega
  · intro y
    simp only [dateAt, sampleE_getD y (by omega : (11 : Nat) < 12),
      sampleE_getD (y + 1) (by omega : (0 : Nat) < 12)]
    omega
  · intro d e hde
    exact Int.ediv_le_ediv (by norm_num) hde
  · intro y
    simp only [dateAt, sampleYearOf, sampleE_getD y (by omega : (0 : Nat) < 12)]
    omega

/-! Helper lemmas about the ephemeris post-processing loop and the
cache store. -/

theorem collect_true_all (l : List (Int × Int)) :
    ∀ acc : IngressTable, acc.length + l.length ≤ 12 →
      collectFromAries l true acc = acc ++ l := by
  induction l with
  | nil => intro acc _; simp [collectFromAries]
  | cons a rest ih =>
    intro acc hlen
    obtain ⟨t, s⟩ := a
    simp only [collectFromAries, Bool.not_true, Bool.and_false, if_false,
      Bool.false_eq_true]
    by_cases h12 : (acc ++ [(t, s)]).length = 12
    · rw [if_pos (by simpa using h12)]
      have hrest : rest = [] := by
        simp only [List.length_append, List.length_cons, List.length_nil] at h12 hlen
        exact List.eq_nil_of_length_eq_zero (by omega)
      simp [hrest]
    · rw [if_neg (by simpa using h12)]
      rw [ih (acc ++ [(t, s)]) (by simp at hlen ⊢; omega)]
      simp

theorem collect_false_dropWhile (l : List (Int × Int)) (acc : IngressTable) :
    collectFromAries l false acc =
      collectFromAries (l.dropWhile (fun p => p.2 != 0)) true acc := by
  induction l generalizing acc with
  | nil => rfl
  | cons a rest ih =>
    obtain ⟨t, s⟩ := a
    rw [List.dropWhile_cons]
    by_cases hs : s = 0
    · subst hs
      rw [if_neg (by simp)]
      simp [collectFromAries]
    · rw [if_pos (by simpa using hs)]
      have hb : (s == 0) = false := by simpa using hs
      simp only [collectFromAries, hb, Bool.false_and, Bool.not_false, if_true,
        Bool.false_eq_true, Bool.not_true]
      exact ih acc

theorem lookup_map_replace (k : Int) (v : IngressTable) (y : Int)
    (hne : y ≠ k) :
    ∀ s : CacheStore,
      (s.map (fun p => if p.1 = k then (k, v) else p)).lookup y
        = s.lookup y := by
  intro s
  induction s with
  | nil => rfl
  | cons a t ih =>
    obtain ⟨ak, av⟩ := a
    rw [List.map_cons]
    by_cases hak : ak = k
    · rw [show (if (ak, av).1 = k then (k, v) else (ak, av)) = (k, v) from if_pos hak]
      rw [List.lookup_cons, List.lookup_cons]
      have hyk : (y == k) = false := by simpa using hne
      have hyne : y ≠ ak := by rw [hak]; exact hne
      have hya : (y == ak) = false := by simpa using hyne
      simp only [hyk, hya]
      exact ih
    · rw [show (if (ak, av).1 = k then (k, v) else (ak, av)) = (ak, av) from if_neg hak]
      rw [List.lookup_cons, List.lookup_cons]
      by_cases hya : y = ak
      · have hb : (y == ak) = true := by simpa using hya
        simp only [hb]
      · have hb : (y == ak) = false := by simpa using hya
        simp only [hb]
        exact ih

theorem lookup_append_single (k : Int) (v : IngressTable) (y : Int)
    (hne : y ≠ k) :
    ∀ s : CacheStore, (s ++ [(k, v)]).lookup y = s.lookup y := by
  intro s
  induction s with
  | nil =>
    have hyk : (y == k) = false := by simpa using hne
    rw [List.nil_append, List.lookup_cons]
    simp [hyk, List.lookup]
  | cons a t ih =>
    obtain ⟨ak, av⟩ := a
    rw [List.cons_append, List.lookup_cons, List.lookup_cons]
    by_cases hya : y = ak
    · have hb : (y == ak) = true := by simpa using hya
      simp only [hb]
    · have hb : (y == ak) = false := by simpa using hya
      simp only [hb]
      exact ih

theorem lookup_dictInsert_ne (k : Int) (v : IngressTable) (s : CacheStore)
    (y : Int) (hne : y ≠ k) :
    (dictInsert k v s).lookup y = s.lookup y := by
  unfold dictInsert
  by_cases hmem : s.any (fun p => p.1 == k)
  · rw [if_pos hmem]
    exact lookup_map_replace k v y hne s
  · rw [if_neg hmem]
    exact lookup_append_single k v y hne s

/-! The claims. -/

/-- Claim C1: over a well-formed ephemeris environment, converting any
Gregorian date to a zodiac date and back returns the original date. -/
theorem roundtrip_gregorian (E : Int → IngressTable) (gy : Int → Int)
    (h : WFEphem E gy) (g : Int) :
    (gregorian_to_zodiac E gy g).bind (zodiac_to_gregorian E)
      = Except.ok g := by
  obtain ⟨hg0, hgN⟩ := governing_bounds h g
  set Y := find_zodiac_year_for_gregorian E gy g with hY
  have hwfY := h.1 Y
  have ht12 : (E Y).length = 12 := hwfY.1
  have hlen : ((E Y).map Prod.fst).length = 12 := by
    rw [List.length_map, ht12]
  obtain ⟨hb1, hb2, hb3⟩ := bisect_right_spec ((E Y).map Prod.fst) g
    (wf_map_mono hwfY)
  rw [hlen] at hb1
  set r := bisect_right ((E Y).map Prod.fst) g with hr
  have hr1 : 1 ≤ r := by
    by_contra hcon
    push_neg at hcon
    have h0 := hb3 0 (by omega) (by rw [hlen]; omega)
    rw [getD_map_fst (E Y) 0 (by omega)] at h0
    omega
  have hk : r - 1 < 12 := by omega
  have h1 : dateAt (E Y) (r - 1) ≤ g := by
    have hi := hb2 (r - 1) (by omega)
    rwa [getD_map_fst (E Y) (r - 1) (by omega)] at hi
  have h2 : g < (if r - 1 < 11 then dateAt (E Y) (r - 1 + 1)
      else dateAt (E (Y + 1)) 0) := by
    by_cases h11 : r - 1 < 11
    · rw [if_pos h11]
      have hi := hb3 (r - 1 + 1) (by omega) (by rw [hlen]; omega)
      rwa [getD_map_fst (E Y) (r - 1 + 1) (by omega)] at hi
    · rw [if_neg h11]
      exact hgN
  rw [gregorian_to_zodiac_eq h hk h1 h2]
  show zodiac_to_gregorian E ⟨Y, ((r - 1 : Nat) : Int) + 1,
    g - dateAt (E Y) (r - 1) + 1⟩ = Except.ok g
  rw [zodiac_to_gregorian_eq ht12 hk ?bound]
  case bound =>
    by_cases h11 : r - 1 < 11
    · right
      rw [if_pos h11] at h2
      omega
    · left
      omega
  congr 1
  ring

/-- Claim C1 witness at a concrete date of the sample environment. -/
theorem roundtrip_gregorian_witness :
    (gregorian_to_zodiac sampleE sampleYearOf 730100).bind
      (zodiac_to_gregorian sampleE) = Except.ok 730100 :=
  roundtrip_gregorian sampleE sampleYearOf sampleE_wf 730100

/-- Claim C4: over a well-formed ephemeris environment, the civil UTC
ingress date of month `m` of zodiac year `Y` converts to day 1 of month
`m` of year `Y`. -/
theorem ingress_is_day_one (E : Int → IngressTable) (gy : Int → Int)
    (h : WFEphem E gy) (Y m : Int) (h1 : 1 ≤ m) (h2 : m ≤ 12) :
    gregorian_to_zodiac E gy (dateAt (E Y) (m - 1).toNat)
      = Except.ok ⟨Y, m, 1⟩ := by
  set k := (m - 1).toNat with hkdef
  have hk : k < 12 := by omega
  have hlt : dateAt (E Y) k < (if k < 11 then dateAt (E Y) (k + 1)
      else dateAt (E (Y + 1)) 0) := by
    by_cases h11 : k < 11
    · rw [if_pos h11]
      exact (h.1 Y).2.2 k (k + 1) (by omega) (by omega)
    · rw [if_neg h11]
      exact h.lt_next_aries Y hk
  rw [gregorian_to_zodiac_eq h hk le_rfl hlt]
  simp only [Except.ok.injEq, ZodiacDate.mk.injEq]
  refine ⟨trivial, by omega, by omega⟩

/-- Claim C4 witness at month 5 of sample year 2000. -/
theorem ingress_is_day_one_witness :
    gregorian_to_zodiac sampleE sampleYearOf
        (dateAt (sampleE 2000) ((5 : Int) - 1).toNat)
      = Except.ok ⟨2000, 5, 1⟩ :=
  ingress_is_day_one sampleE sampleYearOf sampleE_wf 2000 5 (by decide)
    (by decide)

/-- month_length only returns a value when the month is inside 1..12. -/
theorem month_length_ok_range {E : Int → IngressTable} {Y m L : Int}
    (hlen : (E Y).length = 12) (hL : month_length E Y m = Except.ok L) :
    1 ≤ m ∧ m ≤ 12 := by
  by_contra hcon
  push_neg at hcon
  have hcond : m - 1 < 0 ∨ ((E Y).length : Int) ≤ m - 1 := by
    rw [hlen]
    push_cast
    by_cases hc : 1 ≤ m
    · right
      have := hcon hc
      omega
    · left
      omega
  simp only [month_length] at hL
  rw [if_pos hcond] at hL
  exact Except.noConfusion hL

/-- Claim C2: over a well-formed ephemeris environment, any valid
ZodiacDate (its month accepted by month_length and its day between 1
and that length) converts to Gregorian and back to itself. -/
theorem roundtrip_zodiac (E : Int → IngressTable) (gy : Int → Int)
    (h : WFEphem E gy) (z : ZodiacDate) (L : Int)
    (hL : month_length E z.year z.month = Except.ok L)
    (hd1 : 1 ≤ z.day) (hd2 : z.day ≤ L) :
    (zodiac_to_gregorian E z).bind (gregorian_to_zodiac E gy)
      = Except.ok z := by
  obtain ⟨Y, m, d⟩ := z
  simp only at hL hd1 hd2 ⊢
  have ht12 : (E Y).length = 12 := (h.1 Y).1
  obtain ⟨hm1, hm2⟩ := month_length_ok_range ht12 hL
  set k := (m - 1).toNat with hkdef
  have hk : k < 12 := by omega
  have hmk : ((k : Nat) : Int) + 1 = m := by omega
  rw [← hmk] at hL
  rw [month_length_eq ht12 hk] at hL
  have hLval : L = (if k + 1 < 12 then dateAt (E Y) (k + 1)
      else dateAt (E (Y + 1)) 0) - dateAt (E Y) k := by
    injection hL with hv
    omega
  have hnext : dateAt (E Y) k < dateAt (E (Y + 1)) 0 :=
    h.lt_next_aries Y hk
  have hbound : k = 11 ∨ dateAt (E Y) k + (d - 1) < dateAt (E Y) (k + 1) := by
    by_cases h11 : k + 1 < 12
    · right
      rw [if_pos h11] at hLval
      omega
    · left
      omega
  rw [← hmk]
  rw [zodiac_to_gregorian_eq ht12 hk hbound]
  show gregorian_to_zodiac E gy (dateAt (E Y) k + (d - 1))
    = Except.ok ⟨Y, ((k : Nat) : Int) + 1, d⟩
  have hin1 : dateAt (E Y) k ≤ dateAt (E Y) k + (d - 1) := by omega
  have hin2 : dateAt (E Y) k + (d - 1) <
      (if k < 11 then dateAt (E Y) (k + 1) else dateAt (E (Y + 1)) 0) := by
    by_cases h11 : k < 11
    · rw [if_pos h11]
      rw [if_pos (by omega)] at hLval
      omega
    · rw [if_neg h11]
      rw [if_neg (by omega)] at hLval
      omega
  rw [gregorian_to_zodiac_eq h hk hin1 hin2]
  simp only [Except.ok.injEq, ZodiacDate.mk.injEq]
  refine ⟨trivial, trivial, by omega⟩

/-- Claim C2 witness: day 35 of month 12 of sample year 2000 (month
length 35) round-trips. -/
theorem roundtrip_zodiac_witness :
    (zodiac_to_gregorian sampleE ⟨2000, 12, 35⟩).bind
      (gregorian_to_zodiac sampleE sampleYearOf)
      = Except.ok ⟨2000, 12, 35⟩ :=
  roundtrip_zodiac sampleE sampleYearOf sampleE_wf ⟨2000, 12, 35⟩ 35
    (by rfl) (by decide) (by decide)

/-- mapM over Except succeeds pointwise. -/
theorem mapM_ok {α : Type} (f : α → Except ConvError Int) (g : α → Int) :
    ∀ l : List α, (∀ a ∈ l, f a = Except.ok (g a)) →
      l.mapM f = Except.ok (l.map g) := by
  intro l
  induction l with
  | nil => intro _; rfl
  | cons a t ih =>
    intro hp
    simp only [List.mapM_cons, hp a (List.mem_cons_self a t),
      ih (fun b hb => hp b (List.mem_cons_of_mem a hb))]
    rfl

/-- Claim C5: year_length is the sum of the twelve month lengths, and
that sum telescopes to the whole-day span from the Aries ingress of the
year to the Aries ingress of the next year. -/
theorem year_length_spec (E : Int → IngressTable) (gy : Int → Int)
    (h : WFEphem E gy) (Y : Int) :
    ∃ ls : List Int,
      (List.range 12).mapM (fun (m : Nat) => month_length E Y ((m : Int) + 1))
        = Except.ok ls ∧
      year_length E Y = Except.ok ls.sum ∧
      ls.sum = dateAt (E (Y + 1)) 0 - dateAt (E Y) 0 := by
  have ht12 : (E Y).length = 12 := (h.1 Y).1
  refine ⟨(List.range 12).map (fun k =>
    (if k + 1 < 12 then dateAt (E Y) (k + 1) else dateAt (E (Y + 1)) 0)
      - dateAt (E Y) k), ?_, ?_, ?_⟩
  · apply mapM_ok
    intro a ha
    exact month_length_eq ht12 (List.mem_range.mp ha)
  · simp only [year_length]
    rw [mapM_ok _ _ _ (fun a ha => month_length_eq ht12 (List.mem_range.mp ha))]
    rfl
  · rw [show List.range 12 = [0, 1, 2, 3, 4, 5, 6, 7, 8, 9, 10, 11] from rfl]
    simp only [List.map_cons, List.map_nil, List.sum_cons, List.sum_nil]
    norm_num

/-- Claim C5 witness at sample year 2000. -/
theorem year_length_spec_witness :
    ∃ ls : List Int,
      (List.range 12).mapM (fun (m : Nat) => month_length sampleE 2000 ((m : Int) + 1))
        = Except.ok ls ∧
      year_length sampleE 2000 = Except.ok ls.sum ∧
      ls.sum = dateAt (sampleE 2001) 0 - dateAt (sampleE 2000) 0 :=
  year_length_spec sampleE sampleYearOf sampleE_wf 2000

/-- A raised invalid-month ValueError, whatever month it reports. -/
def IsInvalidMonth (r : Except ConvError Int) : Prop :=
  ∃ m, r = Except.error (ConvError.invalidMonth m)

theorem z2g_invalid_of_out {E : Int → IngressTable} {z : ZodiacDate}
    (hlen : (E z.year).length = 12) (hout : z.month < 1 ∨ 12 < z.month) :
    zodiac_to_gregorian E z
      = Except.error (ConvError.invalidMonth z.month) := by
  have hcond : z.month - 1 < 0 ∨ ((E z.year).length : Int) ≤ z.month - 1 := by
    rw [hlen]
    push_cast
    omega
  simp only [zodiac_to_gregorian]
  rw [if_pos hcond]

theorem z2g_not_invalid_of_in {E : Int → IngressTable} {z : ZodiacDate}
    (hlen : (E z.year).length = 12) (h1 : 1 ≤ z.month) (h2 : z.month ≤ 12) :
    ¬ IsInvalidMonth (zodiac_to_gregorian E z) := by
  intro hw
  obtain ⟨w, hw⟩ := hw
  have hcond : ¬(z.month - 1 < 0 ∨ ((E z.year).length : Int) ≤ z.month - 1) := by
    rw [hlen]
    push_cast
    omega
  simp only [zodiac_to_gregorian] at hw
  rw [if_neg hcond] at hw
  split at hw
  · split at hw
    · exact ConvError.noConfusion (Except.error.inj hw)
    · exact Except.noConfusion hw
  · exact Except.noConfusion hw

theorem ml_invalid_of_out {E : Int → IngressTable} {Y m : Int}
    (hlen : (E Y).length = 12) (hout : m < 1 ∨ 12 < m) :
    month_length E Y m = Except.error (ConvError.invalidMonth m) := by
  have hcond : m - 1 < 0 ∨ ((E Y).length : Int) ≤ m - 1 := by
    rw [hlen]
    push_cast
    omega
  simp only [month_length]
  rw [if_pos hcond]

theorem ml_not_invalid_of_in {E : Int → IngressTable} {Y m : Int}
    (hlen : (E Y).length = 12) (h1 : 1 ≤ m) (h2 : m ≤ 12) :
    ¬ IsInvalidMonth (month_length E Y m) := by
  intro hw
  obtain ⟨w, hw⟩ := hw
  have hcond : ¬(m - 1 < 0 ∨ ((E Y).length : Int) ≤ m - 1) := by
    rw [hlen]
    push_cast
    omega
  simp only [month_length] at hw
  rw [if_neg hcond] at hw
  exact Except.noConfusion hw

/-- Claim C8: with 12-entry tables, zodiac_to_gregorian and month_length
raise the invalid-month error exactly for months outside 1..12; in
particular months 0 and 13 are always rejected. -/
theorem invalid_month_iff (E : Int → IngressTable)
    (hlen : ∀ y, (E y).length = 12) (z : ZodiacDate) (Y m : Int) :
    (IsInvalidMonth (zodiac_to_gregorian E z)
        ↔ (z.month < 1 ∨ 12 < z.month)) ∧
    (IsInvalidMonth (month_length E Y m) ↔ (m < 1 ∨ 12 < m)) := by
  constructor
  · constructor
    · intro hi
      by_contra hcon
      push_neg at hcon
      exact z2g_not_invalid_of_in (hlen z.year) (by omega) (by omega) hi
    · intro hout
      exact ⟨z.month, z2g_invalid_of_out (hlen z.year) hout⟩
  · constructor
    · intro hi
      by_contra hcon
      push_neg at hcon
      exact ml_not_invalid_of_in (hlen Y) (by omega) (by omega) hi
    · intro hout
      exact ⟨m, ml_invalid_of_out (hlen Y) hout⟩

/-- Claim C8 witness: months 13 and 0 are rejected concretely. -/
theorem invalid_month_iff_witness :
    IsInvalidMonth (zodiac_to_gregorian sampleE ⟨2000, 13, 1⟩) ∧
    IsInvalidMonth (month_length sampleE 2000 0) :=
  ⟨(invalid_month_iff sampleE sampleE_len ⟨2000, 13, 1⟩ 2000 0).1.mpr
      (by decide),
   (invalid_month_iff sampleE sampleE_len ⟨2000, 13, 1⟩ 2000 0).2.mpr
      (by decide)⟩

/-- Claim C9: whenever gregorian_to_zodiac returns normally over tables
satisfying the YearIngressTable invariant, the resulting month lies in
1..12 and the day is at least 1. -/
theorem output_in_range (E : Int → IngressTable) (gy : Int → Int)
    (hwf : ∀ y, WFTable (E y)) (g : Int) (z : ZodiacDate)
    (h : gregorian_to_zodiac E gy g = Except.ok z) :
    1 ≤ z.month ∧ z.month ≤ 12 ∧ 1 ≤ z.day := by
  set Y := find_zodiac_year_for_gregorian E gy g with hY
  have hwfY := hwf Y
  have ht12 : (E Y).length = 12 := hwfY.1
  obtain ⟨hb1, hb2, hb3⟩ := bisect_right_spec ((E Y).map Prod.fst) g
    (wf_map_mono hwfY)
  rw [List.length_map, ht12] at hb1
  set r := bisect_right ((E Y).map Prod.fst) g with hr
  simp only [gregorian_to_zodiac, ← hY, ← hr] at h
  by_cases hneg : ((r : Nat) : Int) - 1 < 0
  · rw [if_pos hneg] at h
    exact Except.noConfusion h
  · rw [if_neg hneg] at h
    have hr1 : 1 ≤ r := by omega
    have htn : (((r : Nat) : Int) - 1).toNat = r - 1 := by omega
    rw [htn] at h
    injection h with hz
    subst hz
    have hsign : ((E Y).getD (r - 1) (0, 0)).2 = ((r - 1 : Nat) : Int) :=
      hwfY.2.1 (r - 1) (by omega)
    have hdle : dateAt (E Y) (r - 1) ≤ g := by
      have hi := hb2 (r - 1) (by omega)
      rwa [getD_map_fst (E Y) (r - 1) (by omega)] at hi
    simp only [hsign]
    unfold dateAt at hdle
    refine ⟨by omega, by omega, by omega⟩

/-- Claim C9 witness on a concrete conversion. -/
theorem output_in_range_witness :
    1 ≤ (ZodiacDate.mk 2000 4 11).month ∧
      (ZodiacDate.mk 2000 4 11).month ≤ 12 ∧
      1 ≤ (ZodiacDate.mk 2000 4 11).day :=
  output_in_range sampleE sampleYearOf (fun y => sampleE_wf.1 y) 730100
    ⟨2000, 4, 11⟩ (by rfl)

/-- Claim C3 counterexample: in the sample environment month 12 of
zodiac year 2000 has 35 days, yet zodiac_to_gregorian accepts day 1000
of that month and returns a date far beyond the next Aries ingress
instead of failing with a range error. -/
theorem month12_overrun_accepted :
    month_length sampleE 2000 12 = Except.ok 35 ∧
    zodiac_to_gregorian sampleE ⟨2000, 12, 1000⟩ = Except.ok 731329 := by
  constructor
  · rfl
  · rfl

/-- Claim C3 amended: the day bound is enforced only for months 1..11,
against the next ingress date of the same year table; for month 12 no
bound is checked at all (no next-year lookup happens) and the start
date plus the day offset is returned for every day value. -/
theorem day_bound_only_months_1_to_11 (E : Int → IngressTable)
    (hlen : ∀ y, (E y).length = 12) (z : ZodiacDate) :
    (1 ≤ z.month → z.month ≤ 11 →
      dateAt (E z.year) z.month.toNat
          ≤ dateAt (E z.year) (z.month - 1).toNat + (z.day - 1) →
      zodiac_to_gregorian E z
        = Except.error (ConvError.dayBeyondMonth z.day z.month z.year)) ∧
    (z.month = 12 →
      zodiac_to_gregorian E z
        = Except.ok (dateAt (E z.year) 11 + (z.day - 1))) := by
  have ht12 := hlen z.year
  constructor
  · intro h1 h2 h3
    have hcond : ¬(z.month - 1 < 0 ∨ ((E z.year).length : Int) ≤ z.month - 1) := by
      rw [ht12]
      push_cast
      omega
    simp only [zodiac_to_gregorian]
    rw [if_neg hcond]
    have hsucc : (z.month - 1).toNat + 1 = z.month.toNat := by omega
    rw [hsucc]
    rw [if_pos (by rw [ht12]; omega)]
    rw [if_pos (by unfold dateAt at h3; omega)]
  · intro h12
    have hcond : ¬(z.month - 1 < 0 ∨ ((E z.year).length : Int) ≤ z.month - 1) := by
      rw [ht12]
      push_cast
      omega
    simp only [zodiac_to_gregorian]
    rw [if_neg hcond]
    have h11 : (z.month - 1).toNat = 11 := by omega
    rw [h11]
    rw [if_neg (by rw [ht12]; omega)]
    rfl

/-- Claim C3 amended witness: month 3 overrun rejected, month 12
overrun accepted, concretely. -/
theorem day_bound_only_months_1_to_11_witness :
    zodiac_to_gregorian sampleE ⟨2000, 3, 40⟩
        = Except.error (ConvError.dayBeyondMonth 40 3 2000) ∧
    zodiac_to_gregorian sampleE ⟨2000, 12, 500⟩
        = Except.ok (dateAt (sampleE 2000) 11 + (500 - 1)) :=
  ⟨(day_bound_only_months_1_to_11 sampleE sampleE_len ⟨2000, 3, 40⟩).1
      (by decide) (by decide) (by decide),
   (day_bound_only_months_1_to_11 sampleE sampleE_len ⟨2000, 12, 500⟩).2
      (by decide)⟩

/-- Claim C6 counterexample: a search window holding only three sign
transitions at or after the first Aries transition makes
compute_ingresses return normally with a 3-entry table, not raise. -/
theorem short_search_returns_short_table :
    compute_ingresses [(0, 0), (30, 1), (60, 2)] = [(0, 0), (30, 1), (60, 2)] ∧
    (compute_ingresses [(0, 0), (30, 1), (60, 2)]).length = 3 := by
  constructor
  · rfl
  · rfl

/-- Claim C6 amended: compute_ingresses never surfaces an error; when
the window yields fewer than 12 transitions from the first Aries
transition onwards, it silently returns exactly those entries, a table
with fewer than 12 rows. -/
theorem compute_ingresses_short_window (ts : List (Int × Int))
    (h : (ts.dropWhile (fun p => p.2 != 0)).length < 12) :
    compute_ingresses ts = ts.dropWhile (fun p => p.2 != 0) := by
  unfold compute_ingresses
  rw [collect_false_dropWhile]
  simpa using collect_true_all (ts.dropWhile (fun p => p.2 != 0)) []
    (by simpa using le_of_lt h)

/-- Claim C6 amended witness on a concrete short window. -/
theorem compute_ingresses_short_window_witness :
    compute_ingresses [(5, 3), (10, 0), (20, 1)]
      = List.dropWhile (fun p => p.2 != 0) [(5, 3), (10, 0), (20, 1)] :=
  compute_ingresses_short_window [(5, 3), (10, 0), (20, 1)] (by decide)

/-- Claim C7 counterexample: day 0 of month 5 is converted without any
error; the result is the day before that month's start date. -/
theorem nonpositive_day_accepted :
    zodiac_to_gregorian sampleE ⟨2000, 5, 0⟩ = Except.ok 730119 := by rfl

/-- Claim C7 amended: zodiac_to_gregorian never checks day positivity:
for any month in 1..12 and any day value of zero or below, it returns
the month start plus the day offset — a date strictly before the month
start — and raises nothing. -/
theorem nonpositive_day_returns_ok (E : Int → IngressTable)
    (hwf : ∀ y, WFTable (E y)) (z : ZodiacDate)
    (h1 : 1 ≤ z.month) (h2 : z.month ≤ 12) (h3 : z.day ≤ 0) :
    zodiac_to_gregorian E z
        = Except.ok (dateAt (E z.year) (z.month - 1).toNat + (z.day - 1)) ∧
    dateAt (E z.year) (z.month - 1).toNat + (z.day - 1)
        < dateAt (E z.year) (z.month - 1).toNat := by
  refine ⟨?_, by omega⟩
  obtain ⟨Y, m, d⟩ := z
  simp only at h1 h2 h3 ⊢
  have ht12 : (E Y).length = 12 := (hwf Y).1
  set k := (m - 1).toNat with hkdef
  have hk : k < 12 := by omega
  have hmk : ((k : Nat) : Int) + 1 = m := by omega
  rw [← hmk]
  have hbound : k = 11 ∨ dateAt (E Y) k + (d - 1) < dateAt (E Y) (k + 1) := by
    by_cases hc : k = 11
    · left
      exact hc
    · right
      have hlt : dateAt (E Y) k < dateAt (E Y) (k + 1) :=
        (hwf Y).2.2 k (k + 1) (by omega) (by omega)
      omega
  rw [zodiac_to_gregorian_eq ht12 hk hbound]

/-- Claim C7 amended witness at day -3 of month 7 of sample year 2001. -/
theorem nonpositive_day_returns_ok_witness :
    zodiac_to_gregorian sampleE ⟨2001, 7, -3⟩
        = Except.ok (dateAt (sampleE 2001) ((7 : Int) - 1).toNat + (-3 - 1)) ∧
    dateAt (sampleE 2001) ((7 : Int) - 1).toNat + (-3 - 1)
        < dateAt (sampleE 2001) ((7 : Int) - 1).toNat :=
  nonpositive_day_returns_ok sampleE (fun y => sampleE_wf.1 y) ⟨2001, 7, -3⟩
    (by decide) (by decide) (by decide)

/-- Claim C10: on a cache hit get_ingresses_for_year returns the disk
state unchanged (no write), and in every case — hit or compute-and-save
— the resulting persisted store maps every other year exactly as the
loaded store did. -/
theorem cache_hit_no_write (findDiscrete : Int → List (Int × Int))
    (disk : Option CacheStore) (year : Int) :
    ((((load_ingress_cache disk).getD []).lookup year).isSome →
        (get_ingresses_for_year findDiscrete disk year).2 = disk) ∧
    (∀ y, y ≠ year →
        (((get_ingresses_for_year findDiscrete disk year).2.getD []).lookup y)
          = (((load_ingress_cache disk).getD []).lookup y)) := by
  constructor
  · intro hs
    cases hl : (((load_ingress_cache disk).getD []).lookup year) with
    | some entries =>
      simp [get_ingresses_for_year, hl]
    | none =>
      rw [hl] at hs
      simp at hs
  · intro y hy
    cases hl : (((load_ingress_cache disk).getD []).lookup year) with
    | some entries =>
      simp only [load_ingress_cache] at hl
      simp [get_ingresses_for_year, load_ingress_cache, hl]
    | none =>
      simp only [get_ingresses_for_year, hl]
      simp only [save_ingress_cache, Option.getD_some]
      exact lookup_dictInsert_ne year
        (compute_ingresses (findDiscrete year)) _ y hy

/-- Claim C10 witness: a hit on year 2000 leaves the store untouched
and a frame query on year 1999 agrees with the loaded store. -/
theorem cache_hit_no_write_witness :
    (get_ingresses_for_year (fun _ => []) (some [(2000, [(5, 0)])]) 2000).2
        = some [(2000, [(5, 0)])] ∧
    (((get_ingresses_for_year (fun _ => []) (some [(2000, [(5, 0)])])
        2000).2.getD []).lookup 1999)
      = (((load_ingress_cache (some [(2000, [(5, 0)])])).getD []).lookup 1999) :=
  ⟨(cache_hit_no_write (fun _ => []) (some [(2000, [(5, 0)])]) 2000).1
      (by decide),
   (cache_hit_no_write (fun _ => []) (some [(2000, [(5, 0)])]) 2000).2 1999
      (by decide)⟩

end Amareth
